import Mathlib

/-
Verification development for the image-compressor core (src/app4.py).

The Python source is shallowly embedded here:
- byte strings become `List Nat` (one `Nat` per byte);
- the external PIL decoder/encoder are abstracted: a decoded image is a
  record of its PIL color mode plus an opaque pixel payload, and the WebP
  encoder is a parameter `enc : Img → Nat → Option Bytes` (`none` models
  `img.save` raising an exception);
- the ZIP container written by `create_download_zip` is modelled as an
  ordered entry list together with an explicit length-framed serialization,
  so that packing and unpacking the bundle are both executable;
- Streamlit progress/status calls and `time.sleep` are UI side effects with
  no bearing on the computed results and are omitted.
-/

/-- Byte strings (`bytes` values in the Python source). -/
abbrev Bytes := List Nat

/-- Size of a byte string in kilobytes, `buffer.tell() / 1024`
(src/app4.py line 32): binary kilobyte, exact rational division. -/
def sizeKB (b : Bytes) : ℚ := (b.length : ℚ) / 1024

/-- Quality values attempted by the `compress_image` loop, in scan order:
`quality` starts at 90 and decreases by 5 while `quality > 10`
(src/app4.py lines 27-29). -/
def qualityList : List Nat := [90, 85, 80, 75, 70, 65, 60, 55, 50, 45, 40, 35, 30, 25, 20, 15]

/-- Loop body of `compress_image` (src/app4.py lines 29-35).  `enc q` is
`img.save(buffer, format="WEBP", quality=q)` for the fixed image, returning
the encoded bytes (`none` models the encoder raising, which propagates out
of `compress_image`).  `buffer`/`sizeKb` carry the values left over from
the previous iteration, which the Python `while` loop reads after a normal
exit; on such an exit `quality` has already been decremented below the
floor. -/
def compressGo (enc : Nat → Option Bytes) (targetKb : ℚ) (quality : Nat)
    (buffer : Bytes) (sizeKb : ℚ) : Option (Bytes × ℚ × Nat) :=
  if h : 10 < quality then
    match enc quality with
    | none => none
    | some buf =>
      if sizeKB buf ≤ targetKb then some (buf, sizeKB buf, quality)
      else compressGo enc targetKb (quality - 5) buf (sizeKB buf)
  else
    some (buffer, sizeKb, quality)
termination_by quality
decreasing_by omega

/-- `compress_image(img, target_kb)` (src/app4.py lines 26-37), with the
encoder partially applied to the image.  The initial `buffer`/`size_kb`
slots are dead: the loop condition `90 > 10` holds, so the first iteration
always overwrites them. -/
def compress_image (enc : Nat → Option Bytes) (targetKb : ℚ) : Option (Bytes × ℚ × Nat) :=
  compressGo enc targetKb 90 [] 0

theorem compressGo_exit (enc : Nat → Option Bytes) (t : ℚ) (quality : Nat)
    (buf : Bytes) (sz : ℚ) (h : ¬ 10 < quality) :
    compressGo enc t quality buf sz = some (buf, sz, quality) := by
  rw [compressGo]
  simp [h]

theorem compressGo_none (enc : Nat → Option Bytes) (t : ℚ) (quality : Nat)
    (buf : Bytes) (sz : ℚ) (h : 10 < quality) (henc : enc quality = none) :
    compressGo enc t quality buf sz = none := by
  rw [compressGo]
  simp [h, henc]

theorem compressGo_hit (enc : Nat → Option Bytes) (t : ℚ) (quality : Nat)
    (buf : Bytes) (sz : ℚ) (bq : Bytes) (h : 10 < quality)
    (henc : enc quality = some bq) (hle : sizeKB bq ≤ t) :
    compressGo enc t quality buf sz = some (bq, sizeKB bq, quality) := by
  rw [compressGo]
  simp [h, henc, hle]

theorem compressGo_miss (enc : Nat → Option Bytes) (t : ℚ) (quality : Nat)
    (buf : Bytes) (sz : ℚ) (bq : Bytes) (h : 10 < quality)
    (henc : enc quality = some bq) (hgt : ¬ sizeKB bq ≤ t) :
    compressGo enc t quality buf sz = compressGo enc t (quality - 5) bq (sizeKB bq) := by
  rw [compressGo]
  simp [h, henc, hgt]

theorem mem_qualityList {q : Nat} : q ∈ qualityList ↔ 15 ≤ q ∧ q ≤ 90 ∧ q % 5 = 0 := by
  constructor
  · intro h
    simp only [qualityList, List.mem_cons, List.not_mem_nil, or_false] at h
    rcases h with rfl | rfl | rfl | rfl | rfl | rfl | rfl | rfl | rfl | rfl | rfl | rfl | rfl | rfl | rfl | rfl <;> omega
  · intro h
    simp only [qualityList, List.mem_cons, List.not_mem_nil, or_false]
    omega

theorem compressGo_picks_highest (enc : Nat → Option Bytes) (t : ℚ) (b : Nat → Bytes)
    (henc : ∀ q ∈ qualityList, enc q = some (b q))
    (q : Nat) (hq : q ∈ qualityList) (hmeets : sizeKB (b q) ≤ t)
    (hbest : ∀ q' ∈ qualityList, sizeKB (b q') ≤ t → q' ≤ q) :
    ∀ quality, q ≤ quality → quality ≤ 90 → quality % 5 = 0 →
      ∀ buf sz, compressGo enc t quality buf sz = some (b q, sizeKB (b q), q) := by
  intro quality
  induction quality using Nat.strong_induction_on with
  | _ quality ih =>
    intro hqle h90 h5 buf sz
    obtain ⟨hq15, hq90, hq5⟩ := mem_qualityList.1 hq
    have hmem : quality ∈ qualityList := mem_qualityList.2 ⟨by omega, h90, h5⟩
    have h10 : 10 < quality := by omega
    rcases Nat.eq_or_lt_of_le hqle with heq | hlt
    · subst heq
      exact compressGo_hit enc t q buf sz (b q) h10 (henc q hmem) hmeets
    · have hfail : ¬ sizeKB (b quality) ≤ t := fun hle =>
        absurd (hbest quality hmem hle) (by omega)
      rw [compressGo_miss enc t quality buf sz (b quality) h10 (henc quality hmem) hfail]
      exact ih (quality - 5) (by omega) (by omega) (by omega) (by omega) _ _

theorem compressGo_exhausts (enc : Nat → Option Bytes) (t : ℚ) (b : Nat → Bytes)
    (henc : ∀ q ∈ qualityList, enc q = some (b q))
    (hfail : ∀ q ∈ qualityList, ¬ sizeKB (b q) ≤ t) :
    ∀ quality, 15 ≤ quality → quality ≤ 90 → quality % 5 = 0 →
      ∀ buf sz, compressGo enc t quality buf sz = some (b 15, sizeKB (b 15), 10) := by
  intro quality
  induction quality using Nat.strong_induction_on with
  | _ quality ih =>
    intro h15 h90 h5 buf sz
    have hmem : quality ∈ qualityList := mem_qualityList.2 ⟨h15, h90, h5⟩
    have h10 : 10 < quality := by omega
    rw [compressGo_miss enc t quality buf sz (b quality) h10 (henc quality hmem)
      (hfail quality hmem)]
    rcases Nat.eq_or_lt_of_le h15 with heq | hlt
    · rw [← heq]
      exact compressGo_exit enc t (15 - 5) (b 15) (sizeKB (b 15)) (by omega)
    · exact ih (quality - 5) (by omega) (by omega) (by omega) (by omega) _ _

theorem compressGo_isSome (enc : Nat → Option Bytes) (t : ℚ)
    (henc : ∀ q, (enc q).isSome) :
    ∀ quality buf sz, (compressGo enc t quality buf sz).isSome := by
  intro quality
  induction quality using Nat.strong_induction_on with
  | _ quality ih =>
    intro buf sz
    by_cases h10 : 10 < quality
    · obtain ⟨bq, hbq⟩ := Option.isSome_iff_exists.1 (henc quality)
      by_cases hle : sizeKB bq ≤ t
      · rw [compressGo_hit enc t quality buf sz bq h10 hbq hle]
        exact rfl
      · rw [compressGo_miss enc t quality buf sz bq h10 hbq hle]
        exact ih (quality - 5) (by omega) _ _
    · rw [compressGo_exit enc t quality buf sz h10]
      exact rfl

theorem compressGo_sound (enc : Nat → Option Bytes) (t : ℚ) :
    ∀ quality, 10 < quality → quality ≤ 90 → quality % 5 = 0 →
    ∀ buf sz bytes s qr, compressGo enc t quality buf sz = some (bytes, s, qr) →
      ∃ q ∈ qualityList, enc q = some bytes ∧ s = sizeKB bytes := by
  intro quality
  induction quality using Nat.strong_induction_on with
  | _ quality ih =>
    intro h10 h90 h5 buf sz bytes s qr hres
    have hmem : quality ∈ qualityList := mem_qualityList.2 ⟨by omega, h90, h5⟩
    match hbq : enc quality with
    | none =>
      rw [compressGo_none enc t quality buf sz h10 hbq] at hres
      exact absurd hres (by simp)
    | some bq =>
      by_cases hle : sizeKB bq ≤ t
      · rw [compressGo_hit enc t quality buf sz bq h10 hbq hle] at hres
        obtain ⟨hb, hs, hqr⟩ : bq = bytes ∧ sizeKB bq = s ∧ quality = qr := by
          simpa using hres
        exact ⟨quality, hmem, by rw [hbq, hb], by rw [← hs, hb]⟩
      · rw [compressGo_miss enc t quality buf sz bq h10 hbq hle] at hres
        by_cases h15 : 10 < quality - 5
        · exact ih (quality - 5) (by omega) h15 (by omega) (by omega) _ _ _ _ _ hres
        · rw [compressGo_exit enc t (quality - 5) bq (sizeKB bq) h15] at hres
          obtain ⟨hb, hs, hqr⟩ : bq = bytes ∧ sizeKB bq = s ∧ quality - 5 = qr := by
            simpa using hres
          have h15' : quality = 15 := by omega
          exact ⟨quality, hmem, by rw [hbq, hb], by rw [← hs, hb]⟩

/-- Quality values the loop of `compress_image` still has to visit when the
loop variable currently holds `quality`: `quality, quality - 5, …` while the
loop condition `quality > 10` keeps holding. -/
def qualitiesDown (quality : Nat) : List Nat :=
  if h : 10 < quality then quality :: qualitiesDown (quality - 5) else []
termination_by quality
decreasing_by omega

/-- Structural evaluator for the `compress_image` loop: iterates over the
remaining quality values; `lastq` is the value the Python variable `quality`
holds when the loop condition fails (the previous value minus the step).
`compress_image_eval` proves it agrees with `compress_image`; being
structurally recursive, it reduces inside `decide`/`rfl`. -/
def compressList (enc : Nat → Option Bytes) (t : ℚ) :
    List Nat → Bytes → ℚ → Nat → Option (Bytes × ℚ × Nat)
  | [], buf, sz, lastq => some (buf, sz, lastq)
  | q :: qs, _, _, _ =>
    match enc q with
    | none => none
    | some bq =>
      if sizeKB bq ≤ t then some (bq, sizeKB bq, q)
      else compressList enc t qs bq (sizeKB bq) (q - 5)

theorem compressGo_eq_compressList (enc : Nat → Option Bytes) (t : ℚ) :
    ∀ quality buf sz,
      compressGo enc t quality buf sz = compressList enc t (qualitiesDown quality) buf sz quality := by
  intro quality
  induction quality using Nat.strong_induction_on with
  | _ quality ih =>
    intro buf sz
    by_cases h10 : 10 < quality
    · rw [qualitiesDown, dif_pos h10]
      match hbq : enc quality with
      | none =>
        rw [compressGo_none enc t quality buf sz h10 hbq]
        simp [compressList, hbq]
      | some bq =>
        by_cases hle : sizeKB bq ≤ t
        · rw [compressGo_hit enc t quality buf sz bq h10 hbq hle]
          simp [compressList, hbq, hle]
        · rw [compressGo_miss enc t quality buf sz bq h10 hbq hle]
          simp only [compressList, hbq, if_neg hle]
          exact ih (quality - 5) (by omega) _ _
    · rw [qualitiesDown, dif_neg h10, compressGo_exit enc t quality buf sz h10]
      rfl

theorem qualitiesDown_90 : qualitiesDown 90 = qualityList := by
  rw [qualitiesDown]
  rw [qualitiesDown]
  rw [qualitiesDown]
  rw [qualitiesDown]
  rw [qualitiesDown]
  rw [qualitiesDown]
  rw [qualitiesDown]
  rw [qualitiesDown]
  rw [qualitiesDown]
  rw [qualitiesDown]
  rw [qualitiesDown]
  rw [qualitiesDown]
  rw [qualitiesDown]
  rw [qualitiesDown]
  rw [qualitiesDown]
  rw [qualitiesDown]
  rw [qualitiesDown]
  norm_num [qualityList]

theorem compress_image_eval (enc : Nat → Option Bytes) (t : ℚ) :
    compress_image enc t = compressList enc t qualityList [] 0 90 := by
  rw [compress_image, compressGo_eq_compressList, qualitiesDown_90]

/-- C1: for every decoded image (given by its per-quality encodings `b`) and
every target, `compress_image` tries qualities 90, 85, …, 15 in decreasing
order and returns the first encoding whose size in KB (byte length / 1024)
is ≤ the target, together with that achieved size and that quality; the
quality returned on success is the highest value in {90, 85, …, 15} whose
encoding meets the target. -/
theorem claim_C1_compress_picks_highest_quality (enc : Nat → Option Bytes) (t : ℚ)
    (b : Nat → Bytes)
    (henc : ∀ q ∈ qualityList, enc q = some (b q))
    (q : Nat) (hq : q ∈ qualityList) (hmeets : sizeKB (b q) ≤ t)
    (hbest : ∀ q' ∈ qualityList, sizeKB (b q') ≤ t → q' ≤ q) :
    compress_image enc t = some (b q, sizeKB (b q), q) := by
  rw [compress_image]
  exact compressGo_picks_highest enc t b henc q hq hmeets hbest 90
    (mem_qualityList.1 hq).2.1 (by norm_num) (by norm_num) [] 0

/-- Witness for C1: an encoder whose quality-`q` output is `q` bytes long,
with target 50/1024 KB (= 50 bytes): quality 50 is the highest level that
meets the target and is exactly what `compress_image` returns. -/
theorem claim_C1_witness :
    compress_image (fun q => some (List.replicate q 0)) (50/1024)
      = some (List.replicate 50 0, sizeKB (List.replicate 50 0), 50) :=
  claim_C1_compress_picks_highest_quality (fun q => some (List.replicate q 0)) (50/1024)
    (fun q => List.replicate q 0) (fun _ _ => rfl) 50 (by decide)
    (by norm_num [sizeKB])
    (by
      intro q' hq' h
      fin_cases hq' <;> norm_num [sizeKB] at h ⊢)

/-- C2 counterexample: with an encoder that always produces 2048 bytes
(2 KB) and target 1 KB, no quality level meets the target; the claim says
the chosen quality is then reported as 15, but `compress_image` reports 10
(the loop variable after the final decrement). -/
theorem claim_C2_counterexample :
    compress_image (fun _ => some (List.replicate 2048 0)) 1
      = some (List.replicate 2048 0, 2, 10) ∧
    (compress_image (fun _ => some (List.replicate 2048 0)) 1).map (fun r => r.2.2)
      ≠ some 15 := by
  rw [compress_image_eval]
  norm_num [compressList, qualityList, sizeKB]

/-- C2 (amended): for every image and every target so small that no quality
in {90, 85, …, 15} meets it, `compress_image` returns the last attempted
encoding — the quality-15 encoding — with its achieved size (which exceeds
the target), but the quality slot of the returned triple holds 10, the
value of the loop variable after the final decrement, not 15; no error is
raised in this case. -/
theorem claim_C2_amended_floor (enc : Nat → Option Bytes) (t : ℚ) (b : Nat → Bytes)
    (henc : ∀ q ∈ qualityList, enc q = some (b q))
    (hfail : ∀ q ∈ qualityList, ¬ sizeKB (b q) ≤ t) :
    compress_image enc t = some (b 15, sizeKB (b 15), 10) ∧ t < sizeKB (b 15) := by
  constructor
  · rw [compress_image]
    exact compressGo_exhausts enc t b henc hfail 90 (by norm_num) (by norm_num)
      (by norm_num) [] 0
  · exact not_le.1 (hfail 15 (by decide))

/-- Witness for C2 (amended): the 2048-byte encoder with target 1 KB ends
at the quality-15 encoding, reported quality 10, achieved size 2 KB > 1 KB. -/
theorem claim_C2_witness :
    compress_image (fun _ => some (List.replicate 2048 0)) 1
      = some (List.replicate 2048 0, sizeKB (List.replicate 2048 0), 10) ∧
    (1:ℚ) < sizeKB (List.replicate 2048 0) :=
  claim_C2_amended_floor (fun _ => some (List.replicate 2048 0)) 1
    (fun _ => List.replicate 2048 0) (fun _ _ => rfl)
    (by
      intro q hq
      norm_num [sizeKB])

/-- PIL color modes that `Image.open` can produce for the supported input
formats png / jpg / jpeg / webp (PNG opens as 1, L, LA, I, P, RGB or RGBA;
JPEG as L, RGB or CMYK; WebP as RGB or RGBA).  These are the modes the
pipeline's mode check at src/app4.py lines 148 and 189 can encounter. -/
inductive Mode
  | one
  | L
  | LA
  | I
  | P
  | RGB
  | RGBA
  | CMYK
deriving DecidableEq, Repr

/-- Whether a mode carries an alpha channel (LA = luminance + alpha,
RGBA = three color channels + alpha). -/
def Mode.hasAlpha : Mode → Bool
  | .RGBA => true
  | .LA => true
  | _ => false

/-- A decoded pixel buffer (a PIL `Image`): its color mode plus an opaque
payload identifier standing for the pixel data. -/
structure Img where
  mode : Mode
  pix : Nat
deriving DecidableEq, Repr

/-- `img.convert('RGB')`: flatten to three channels, discarding alpha; the
payload identifier is kept since the encoder is abstract over it. -/
def Img.convertRGB (img : Img) : Img :=
  { img with mode := Mode.RGB }

/-- Mode normalization performed by the pipeline before encoding
(src/app4.py lines 148-149 and 189-190):
`if img.mode in ('RGBA', 'LA'): img = img.convert('RGB')`. -/
def normalizeMode (img : Img) : Img :=
  if img.mode = Mode.RGBA ∨ img.mode = Mode.LA then img.convertRGB else img

/-- Model of the alpha content of PIL's WebP output: the encoder writes an
alpha plane exactly when the buffer handed to it carries an alpha channel. -/
def webpOutputHasAlpha (img : Img) : Bool :=
  img.mode.hasAlpha

/-- One input unit of the direct-upload pipeline (`uploaded_file` in
`process_files`, src/app4.py lines 134-157): its name, its raw byte size
(`uploaded_file.size`), and the result of `Image.open` on its bytes —
`none` models `Image.open` raising because the bytes are not a decodable
image.  Archive members processed by `process_zip` carry the same data,
with `size` read from the extracted file (`os.path.getsize`). -/
structure UploadedFile where
  name : String
  size : Nat
  decoded : Option Img
deriving DecidableEq, Repr

/-- A (name, encodedBytes, originalSizeKB, finalSizeKB) tuple appended to
`compressed_files` (src/app4.py line 152). -/
structure CompressionResult where
  name : String
  encodedBytes : Bytes
  originalSizeKB : ℚ
  finalSizeKB : ℚ
deriving DecidableEq, Repr

/-- Body of the per-item `try` block (src/app4.py lines 144-155): decode,
record the original size from the source's stored byte size, normalize the
mode, compress; `none` models the `except` path (the item's error is
reported and the item skipped). -/
def processOne (enc : Img → Nat → Option Bytes) (t : ℚ) (f : UploadedFile) :
    Option CompressionResult :=
  match f.decoded with
  | none => none
  | some img0 =>
    let img := normalizeMode img0
    match compress_image (enc img) t with
    | none => none
    | some (data, finalSize, _quality) =>
      some { name := f.name, encodedBytes := data,
             originalSizeKB := (f.size : ℚ) / 1024, finalSizeKB := finalSize }

/-- `process_files(uploaded_files, target_kb, …)` (src/app4.py lines
134-157): process each source in input order, appending a result on
success and skipping the item on failure; progress reporting and
`time.sleep(0.1)` are UI side effects with no bearing on the result. -/
def process_files (enc : Img → Nat → Option Bytes) (t : ℚ) :
    List UploadedFile → List CompressionResult
  | [] => []
  | f :: fs =>
    match processOne enc t f with
    | none => process_files enc t fs
    | some r => r :: process_files enc t fs

/-- Python `str.split('.')` at the character-list level: cut the string at
every `'.'`, keeping empty pieces (so `"a.b".split('.') = ["a","b"]`,
`".x".split('.') = ["","x"]`, `"a".split('.') = ["a"]`). -/
def splitDot : List Char → List (List Char)
  | [] => [[]]
  | c :: cs =>
    if c = '.' then [] :: splitDot cs
    else
      match splitDot cs with
      | [] => [[c]]
      | p :: ps => (c :: p) :: ps

/-- `filename.split('.')[0]` (src/app4.py line 43): the first piece of the
dot split, i.e. everything before the first `'.'` occurrence. -/
def baseName (s : String) : String :=
  ⟨(splitDot s.data).headD []⟩

/-- Name of the archive entry written for a compressed file
(src/app4.py line 43): `f"compressed_(filename.split('.')[0]).webp"`. -/
def zipEntryName (filename : String) : String :=
  "compressed_" ++ baseName filename ++ ".webp"

/-- One entry of the download archive: `zip_file.writestr(name, data)`. -/
structure ZipEntry where
  name : String
  data : Bytes
deriving DecidableEq, Repr

/-- The ordered entries written by `create_download_zip` (src/app4.py lines
41-43): one `writestr` per compressed file, in result order. -/
def zipEntriesOf (results : List CompressionResult) : List ZipEntry :=
  results.map fun r => ⟨zipEntryName r.name, r.encodedBytes⟩

/-- Characters of a string as code points, for the container serialization. -/
def encodeString (s : String) : Bytes :=
  s.data.map Char.toNat

/-- Inverse of `encodeString`. -/
def decodeString (l : Bytes) : String :=
  ⟨l.map Char.ofNat⟩

/-- Serialization of one archive entry in the container model: the name and
the payload, each length-framed.  This models the ZIP container at the
level of entry framing; deflate is modelled as the identity on payload
bytes, which is what the round-trip through `zipfile` guarantees. -/
def serializeEntry (e : ZipEntry) : Bytes :=
  (encodeString e.name).length :: (encodeString e.name ++ e.data.length :: e.data)

/-- Serialization of all entries, in order. -/
def serializeEntries : List ZipEntry → Bytes
  | [] => []
  | e :: es => serializeEntry e ++ serializeEntries es

/-- `create_download_zip(compressed_files)` (src/app4.py lines 39-44):
write one entry per compressed file into an in-memory container and return
the container bytes (entry count followed by the framed entries). -/
def create_download_zip (results : List CompressionResult) : Bytes :=
  (zipEntriesOf results).length :: serializeEntries (zipEntriesOf results)

/-- Read one framed entry back from the container bytes. -/
def parseEntry (b : Bytes) : Option (ZipEntry × Bytes) :=
  match b with
  | [] => none
  | nameLen :: rest =>
    if (rest.take nameLen).length = nameLen then
      match rest.drop nameLen with
      | [] => none
      | dataLen :: rest2 =>
        if (rest2.take dataLen).length = dataLen then
          some (⟨decodeString (rest.take nameLen), rest2.take dataLen⟩, rest2.drop dataLen)
        else none
    else none

/-- Read `n` framed entries back from the container bytes. -/
def parseEntries : Nat → Bytes → Option (List ZipEntry × Bytes)
  | 0, b => some ([], b)
  | n + 1, b =>
    match parseEntry b with
    | none => none
    | some (e, rest) =>
      match parseEntries n rest with
      | none => none
      | some (es, rest') => some (e :: es, rest')

/-- Unpack a container blob produced by `create_download_zip`: read the
entry count, then that many entries, requiring that nothing is left over. -/
def unpackBundle (b : Bytes) : Option (List ZipEntry) :=
  match b with
  | [] => none
  | n :: rest =>
    match parseEntries n rest with
    | none => none
    | some (es, rest') => if rest' = [] then some es else none

theorem decodeString_encodeString (s : String) : decodeString (encodeString s) = s := by
  apply String.ext
  simp only [decodeString, encodeString, List.map_map]
  have hcomp : (Char.ofNat ∘ Char.toNat) = id := funext fun c => Char.ofNat_toNat c
  rw [hcomp, List.map_id]

theorem parseEntry_serializeEntry (e : ZipEntry) (tail : Bytes) :
    parseEntry (serializeEntry e ++ tail) = some (e, tail) := by
  obtain ⟨name, data⟩ := e
  simp only [parseEntry, serializeEntry, List.cons_append, List.append_assoc]
  rw [List.take_left, List.drop_left]
  simp only [List.length_take, List.cons_append]
  have hname : (encodeString name).length ⊓ (encodeString name).length = (encodeString name).length :=
    min_self _
  rw [List.take_left, List.drop_left]
  simp [decodeString_encodeString]

theorem parseEntries_serializeEntries (es : List ZipEntry) (tail : Bytes) :
    parseEntries es.length (serializeEntries es ++ tail) = some (es, tail) := by
  induction es generalizing tail with
  | nil => simp [serializeEntries, parseEntries]
  | cons e es ih =>
    simp only [List.length_cons, serializeEntries, parseEntries, List.append_assoc,
      parseEntry_serializeEntry]
    simp [ih]

theorem unpackBundle_create_download_zip (results : List CompressionResult) :
    unpackBundle (create_download_zip results) = some (zipEntriesOf results) := by
  have h := parseEntries_serializeEntries (zipEntriesOf results) []
  rw [List.append_nil] at h
  simp [unpackBundle, create_download_zip, h]

/-- Extension filter of the ZIP extractor (src/app4.py line 172):
`file.lower().endswith(('.png', '.jpg', '.jpeg', '.webp'))`. -/
def hasImageExt (name : String) : Bool :=
  name.toLower.endsWith (".png") || name.toLower.endsWith (".jpg") ||
    name.toLower.endsWith (".jpeg") || name.toLower.endsWith (".webp")

/-- The uploaded archive blob as seen by `process_zip` (src/app4.py lines
159-198): whether `zipfile.ZipFile` accepts it as a valid container, and —
when valid — the extracted member files in filesystem-walk order, each with
its name, its size on disk (`os.path.getsize`) and its `Image.open` result. -/
structure ZipUpload where
  valid : Bool
  members : List UploadedFile
deriving DecidableEq, Repr

/-- `zipfile.BadZipFile`: the archive is not a valid container. -/
inductive ZipError
  | badZipFile
deriving DecidableEq, Repr

/-- `process_zip(uploaded_zip, target_kb, …)` (src/app4.py lines 159-198):
opening an invalid container raises out of the function (there is no
`try` around the extraction), so the whole batch fails with no results;
otherwise the walk collects the member files whose extension matches the
supported set and each is processed exactly as in `process_files` (decode,
size from the extracted file, mode normalization, compress, per-item
failure isolation). -/
def process_zip (enc : Img → Nat → Option Bytes) (t : ℚ) (z : ZipUpload) :
    Except ZipError (List CompressionResult) :=
  if z.valid then
    Except.ok (process_files enc t (z.members.filter fun f => hasImageExt f.name))
  else
    Except.error ZipError.badZipFile

theorem splitDot_ne_nil (l : List Char) : splitDot l ≠ [] := by
  match l with
  | [] => simp [splitDot]
  | c :: cs =>
    rw [splitDot]
    by_cases hc : c = '.'
    · simp [hc]
    · rw [if_neg hc]
      match splitDot cs with
      | [] => simp
      | p :: ps => simp

theorem headD_splitDot (l : List Char) :
    (splitDot l).headD [] = l.takeWhile (fun c => c ≠ '.') := by
  induction l with
  | nil => simp [splitDot]
  | cons c cs ih =>
    by_cases hc : c = '.'
    · subst hc
      simp [splitDot, List.takeWhile]
    · rw [splitDot, if_neg hc]
      match hsp : splitDot cs with
      | [] => exact absurd hsp (splitDot_ne_nil cs)
      | p :: ps =>
        rw [hsp] at ih
        simp only [List.headD] at ih
        simp [List.takeWhile, hc]
        simpa using ih

theorem baseName_data (s : String) :
    (baseName s).data = s.data.takeWhile (fun c => c ≠ '.') :=
  headD_splitDot s.data

theorem processOne_some (enc : Img → Nat → Option Bytes) (t : ℚ) (f : UploadedFile)
    (img : Img) (hdec : f.decoded = some img)
    (henc : ∀ q, (enc (normalizeMode img) q).isSome) :
    ∃ data finalSize qret,
      compress_image (enc (normalizeMode img)) t = some (data, finalSize, qret) ∧
      processOne enc t f = some ⟨f.name, data, (f.size : ℚ) / 1024, finalSize⟩ := by
  obtain ⟨x, hx⟩ := Option.isSome_iff_exists.1
    (compressGo_isSome (enc (normalizeMode img)) t henc 90 [] 0)
  obtain ⟨data, finalSize, qret⟩ := x
  have hcomp : compress_image (enc (normalizeMode img)) t = some (data, finalSize, qret) := hx
  exact ⟨data, finalSize, qret, hcomp, by simp [processOne, hdec, hcomp]⟩

/-- C9: for every direct-upload batch in which all items succeed (every
source decodes and the encoder succeeds), the order of CompressionResults
in the outcome equals the input order of the sources exactly (insertion
order = processing order = input order), witnessed by the name sequence. -/
theorem claim_C9_order_preserved (enc : Img → Nat → Option Bytes) (t : ℚ)
    (files : List UploadedFile)
    (hdec : ∀ f ∈ files, (f.decoded).isSome)
    (henc : ∀ i q, (enc i q).isSome) :
    (process_files enc t files).map (fun r => r.name) = files.map (fun f => f.name) := by
  induction files with
  | nil => rfl
  | cons f fs ih =>
    obtain ⟨img, himg⟩ := Option.isSome_iff_exists.1 (hdec f (by simp))
    obtain ⟨data, finalSize, qret, _, hp⟩ :=
      processOne_some enc t f img himg (fun q => henc _ q)
    simp only [process_files, hp, List.map_cons]
    rw [ih (fun g hg => hdec g (by simp [hg]))]

/-- Witness for C9: a two-file batch in input order (names preserved). -/
theorem claim_C9_witness :
    (process_files (fun _ _ => some [7]) 45
        [⟨"a.png", 1024, some ⟨Mode.RGB, 0⟩⟩, ⟨"b.jpg", 2048, some ⟨Mode.L, 1⟩⟩]).map
        (fun r => r.name)
      = ["a.png", "b.jpg"] :=
  claim_C9_order_preserved (fun _ _ => some [7]) 45
    [⟨"a.png", 1024, some ⟨Mode.RGB, 0⟩⟩, ⟨"b.jpg", 2048, some ⟨Mode.L, 1⟩⟩]
    (by intro f hf; fin_cases hf <;> rfl) (fun _ _ => rfl)

/-- C4: a failure while decoding or encoding one item is isolated to that
item: in a batch of three sources where the second fails (its bytes do not
decode, or the encoder rejects its normalized buffer), the outcome has
exactly the results of sources 1 and 3, in that order, carrying their
names and original sizes. -/
theorem claim_C4_per_item_isolation (enc : Img → Nat → Option Bytes) (t : ℚ)
    (f1 f2 f3 : UploadedFile) (img1 img3 : Img)
    (h1 : f1.decoded = some img1)
    (henc1 : ∀ q, (enc (normalizeMode img1) q).isSome)
    (hfail : f2.decoded = none ∨
      ∃ img2, f2.decoded = some img2 ∧ compress_image (enc (normalizeMode img2)) t = none)
    (h3 : f3.decoded = some img3)
    (henc3 : ∀ q, (enc (normalizeMode img3) q).isSome) :
    ∃ r1 r3, process_files enc t [f1, f2, f3] = [r1, r3] ∧
      r1.name = f1.name ∧ r3.name = f3.name ∧
      r1.originalSizeKB = (f1.size : ℚ) / 1024 ∧
      r3.originalSizeKB = (f3.size : ℚ) / 1024 := by
  obtain ⟨d1, s1, q1, _, hp1⟩ := processOne_some enc t f1 img1 h1 henc1
  obtain ⟨d3, s3, q3, _, hp3⟩ := processOne_some enc t f3 img3 h3 henc3
  have hp2 : processOne enc t f2 = none := by
    rcases hfail with h2 | ⟨img2, hdec2, hcomp2⟩
    · simp [processOne, h2]
    · simp [processOne, hdec2, hcomp2]
  refine ⟨⟨f1.name, d1, (f1.size : ℚ) / 1024, s1⟩, ⟨f3.name, d3, (f3.size : ℚ) / 1024, s3⟩,
    ?_, rfl, rfl, rfl, rfl⟩
  simp [process_files, hp1, hp2, hp3]

/-- Witness for C4: three files, the middle one with undecodable bytes. -/
theorem claim_C4_witness :
    ∃ r1 r3,
      process_files (fun _ _ => some [7]) 45
          [⟨"a.png", 1024, some ⟨Mode.RGB, 0⟩⟩, ⟨"bad.png", 512, none⟩,
            ⟨"c.png", 2048, some ⟨Mode.L, 1⟩⟩] = [r1, r3] ∧
      r1.name = "a.png" ∧ r3.name = "c.png" ∧
      r1.originalSizeKB = ((1024 : Nat) : ℚ) / 1024 ∧
      r3.originalSizeKB = ((2048 : Nat) : ℚ) / 1024 :=
  claim_C4_per_item_isolation (fun _ _ => some [7]) 45
    ⟨"a.png", 1024, some ⟨Mode.RGB, 0⟩⟩ ⟨"bad.png", 512, none⟩
    ⟨"c.png", 2048, some ⟨Mode.L, 1⟩⟩ ⟨Mode.RGB, 0⟩ ⟨Mode.L, 1⟩
    rfl (fun _ => rfl) (Or.inl rfl) rfl (fun _ => rfl)

/-- C5: an input image whose color mode carries an alpha channel is
flattened to three-channel RGB before the encoder is invoked (src/app4.py
lines 148-149 and 189-190), the item encodes without error (given an
encoder that accepts RGB buffers), the output carries no alpha, and the
encoder really received the flattened image: the result bytes are an
encoding of `normalizeMode img`. -/
theorem claim_C5_alpha_flattening (enc : Img → Nat → Option Bytes) (t : ℚ)
    (f : UploadedFile) (img : Img)
    (hdec : f.decoded = some img)
    (halpha : img.mode.hasAlpha = true)
    (henc : ∀ q, (enc (normalizeMode img) q).isSome) :
    (normalizeMode img).mode = Mode.RGB ∧
    webpOutputHasAlpha (normalizeMode img) = false ∧
    ∃ r, process_files enc t [f] = [r] ∧
      ∃ q ∈ qualityList, enc (normalizeMode img) q = some r.encodedBytes := by
  have hmode : (normalizeMode img).mode = Mode.RGB := by
    rcases img with ⟨m, p⟩
    cases m <;> simp_all [Mode.hasAlpha, normalizeMode, Img.convertRGB]
  refine ⟨hmode, by simp [webpOutputHasAlpha, hmode, Mode.hasAlpha], ?_⟩
  obtain ⟨data, finalSize, qret, hcomp, hp⟩ := processOne_some enc t f img hdec henc
  obtain ⟨q, hqmem, hqenc, _⟩ :=
    compressGo_sound (enc (normalizeMode img)) t 90 (by norm_num) (by norm_num)
      (by norm_num) [] 0 data finalSize qret hcomp
  exact ⟨⟨f.name, data, (f.size : ℚ) / 1024, finalSize⟩, by simp [process_files, hp],
    q, hqmem, hqenc⟩

/-- Witness for C5: a fully transparent 100 x 100 RGBA image (opaque payload
id 0), target 50 KB, an encoder producing 100-byte outputs on RGB buffers:
compression does not fail. -/
theorem claim_C5_witness :
    (normalizeMode ⟨Mode.RGBA, 0⟩).mode = Mode.RGB ∧
    webpOutputHasAlpha (normalizeMode ⟨Mode.RGBA, 0⟩) = false ∧
    ∃ r, process_files (fun _ _ => some (List.replicate 100 0)) 50
        [⟨"transparent.png", 40960, some ⟨Mode.RGBA, 0⟩⟩] = [r] ∧
      ∃ q ∈ qualityList,
        (fun (_ : Img) (_ : Nat) => some (List.replicate 100 0)) (normalizeMode ⟨Mode.RGBA, 0⟩) q
          = some r.encodedBytes :=
  claim_C5_alpha_flattening (fun _ _ => some (List.replicate 100 0)) 50
    ⟨"transparent.png", 40960, some ⟨Mode.RGBA, 0⟩⟩ ⟨Mode.RGBA, 0⟩
    rfl rfl (fun _ => rfl)

/-- C8: every CompressionResult produced by the pipeline has non-empty
encoded bytes (for an encoder that never returns empty output), the bytes
are a valid encoding of the normalized source image at some quality level
in the scan (hence ≤ 90), the recorded final size is the measured size of
those bytes, and `originalSizeKB` is the source's stored byte size divided
by 1024, not re-measured from the decoded image. -/
theorem claim_C8_result_invariants (enc : Img → Nat → Option Bytes) (t : ℚ)
    (files : List UploadedFile)
    (hne : ∀ i q b, enc i q = some b → b ≠ []) :
    ∀ r ∈ process_files enc t files,
      r.encodedBytes ≠ [] ∧
      ∃ f ∈ files, ∃ img, f.decoded = some img ∧
        r.originalSizeKB = (f.size : ℚ) / 1024 ∧
        ∃ q ∈ qualityList, q ≤ 90 ∧
          enc (normalizeMode img) q = some r.encodedBytes ∧
          r.finalSizeKB = sizeKB r.encodedBytes := by
  induction files with
  | nil => intro r hr; simp [process_files] at hr
  | cons f fs ih =>
    intro r hr
    match hp : processOne enc t f with
    | none =>
      rw [process_files, hp] at hr
      obtain ⟨hne', g, hg, rest⟩ := ih r hr
      exact ⟨hne', g, by simp [hg], rest⟩
    | some r0 =>
      rw [process_files, hp] at hr
      rcases List.mem_cons.1 hr with rfl | hr'
      · match hdec : f.decoded with
        | none => simp only [processOne, hdec] at hp; exact absurd hp (by simp)
        | some img =>
          simp only [processOne, hdec] at hp
          match hcomp : compress_image (enc (normalizeMode img)) t with
          | none => simp only [hcomp] at hp; exact absurd hp (by simp)
          | some x =>
            obtain ⟨data, finalSize, qret⟩ := x
            simp only [hcomp] at hp
            have hr0 : r = ⟨f.name, data, (f.size : ℚ) / 1024, finalSize⟩ := by
              simpa using hp.symm
            obtain ⟨q, hqmem, hqenc, hs⟩ :=
              compressGo_sound (enc (normalizeMode img)) t 90 (by norm_num) (by norm_num)
                (by norm_num) [] 0 data finalSize qret hcomp
            subst hr0
            exact ⟨hne _ _ _ hqenc, f, by simp, img, hdec, rfl, q, hqmem,
              (mem_qualityList.1 hqmem).2.1, hqenc, hs⟩
      · obtain ⟨hne', g, hg, rest⟩ := ih r hr'
        exact ⟨hne', g, by simp [hg], rest⟩

/-- Witness for C8: a one-file batch with a constant one-byte encoder; the
single result of the batch satisfies all the invariants. -/
theorem claim_C8_witness :
    (⟨"a.png", [7], ((1024 : Nat) : ℚ) / 1024, sizeKB [7]⟩ : CompressionResult).encodedBytes ≠ [] ∧
    ∃ f ∈ [(⟨"a.png", 1024, some ⟨Mode.RGB, 0⟩⟩ : UploadedFile)], ∃ img,
      f.decoded = some img ∧
      (⟨"a.png", [7], ((1024 : Nat) : ℚ) / 1024, sizeKB [7]⟩ : CompressionResult).originalSizeKB
        = (f.size : ℚ) / 1024 ∧
      ∃ q ∈ qualityList, q ≤ 90 ∧
        (fun (_ : Img) (_ : Nat) => some [7]) (normalizeMode img) q
          = some (⟨"a.png", [7], ((1024 : Nat) : ℚ) / 1024, sizeKB [7]⟩ : CompressionResult).encodedBytes ∧
        (⟨"a.png", [7], ((1024 : Nat) : ℚ) / 1024, sizeKB [7]⟩ : CompressionResult).finalSizeKB
          = sizeKB (⟨"a.png", [7], ((1024 : Nat) : ℚ) / 1024, sizeKB [7]⟩ : CompressionResult).encodedBytes :=
  claim_C8_result_invariants (fun _ _ => some [7]) 45 [⟨"a.png", 1024, some ⟨Mode.RGB, 0⟩⟩]
    (by intro i q b h; rw [Option.some.injEq] at h; subst h; simp)
    ⟨"a.png", [7], ((1024 : Nat) : ℚ) / 1024, sizeKB [7]⟩
    (by
      have heval : process_files (fun _ _ => some [7]) 45 [⟨"a.png", 1024, some ⟨Mode.RGB, 0⟩⟩]
          = [⟨"a.png", [7], ((1024 : Nat) : ℚ) / 1024, sizeKB [7]⟩] := by
        norm_num [process_files, processOne, compress_image_eval, compressList, qualityList,
          sizeKB, normalizeMode, Img.convertRGB]
      rw [heval]
      exact List.mem_singleton.2 rfl)

/-- C3: every CompressionResult packed into the bundle gets the archive
entry name `compressed_<baseName>.webp`, where `baseName` is the portion of
the source name before its first `'.'` occurrence; in particular a source
named `photo.v2.png` produces entry `compressed_photo.webp` (first-dot
split, not last-dot split). -/
theorem claim_C3_entry_naming :
    (∀ results : List CompressionResult,
      (zipEntriesOf results).map ZipEntry.name
        = results.map fun r => "compressed_" ++ baseName r.name ++ ".webp")
    ∧ (∀ s : String, (baseName s).data = s.data.takeWhile fun c => c ≠ '.')
    ∧ zipEntryName ("photo.v2.png") = "compressed_photo.webp" := by
  refine ⟨fun results => ?_, baseName_data, by decide⟩
  simp [zipEntriesOf, zipEntryName]

/-- C6: unpacking the bundle produced from N results yields exactly N
entries, and each entry's payload bytes equal the corresponding
CompressionResult's encoded bytes byte-for-byte. -/
theorem claim_C6_bundle_round_trip (results : List CompressionResult) :
    unpackBundle (create_download_zip results) = some (zipEntriesOf results) ∧
    (zipEntriesOf results).length = results.length ∧
    (zipEntriesOf results).map ZipEntry.data
      = results.map CompressionResult.encodedBytes := by
  refine ⟨unpackBundle_create_download_zip results, ?_, ?_⟩ <;> simp [zipEntriesOf]

/-- C7: if the archive blob supplied to the batch is not a valid container,
the extraction failure is fatal to the whole batch: `process_zip` returns
the `BadZipFile` error, a value that carries no results at all (there is no
`try` around the extraction in src/app4.py lines 159-167, so nothing is
processed and no partial result list is produced). -/
theorem claim_C7_invalid_archive_fatal (enc : Img → Nat → Option Bytes) (t : ℚ)
    (z : ZipUpload) (hinvalid : z.valid = false) :
    process_zip enc t z = Except.error ZipError.badZipFile := by
  simp [process_zip, hinvalid]

/-- Witness for C7: a concrete invalid blob fails fatally. -/
theorem claim_C7_witness :
    process_zip (fun _ _ => some [7]) 45 ⟨false, [⟨"a.png", 1024, some ⟨Mode.RGB, 0⟩⟩]⟩
      = Except.error ZipError.badZipFile :=
  claim_C7_invalid_archive_fatal (fun _ _ => some [7]) 45
    ⟨false, [⟨"a.png", 1024, some ⟨Mode.RGB, 0⟩⟩]⟩ rfl

/-- C10: the first-dot split applies even without an extension: a source
name with no `'.'` at all keeps its entire name as the base, giving entry
`compressed_<fullName>.webp`, and a source name starting with `'.'` gets
the empty base, giving entry `compressed_.webp`. -/
theorem claim_C10_dotless_and_leading_dot (s t' : String)
    (h1 : '.' ∉ s.data) (h2 : t'.data.head? = some '.') :
    zipEntryName s = "compressed_" ++ s ++ ".webp" ∧
    zipEntryName t' = "compressed_.webp" := by
  constructor
  · have hbase : baseName s = s := by
      apply String.ext
      rw [baseName_data]
      exact List.takeWhile_eq_self_iff.2 fun c hc => by
        simp only [ne_eq, decide_eq_true_eq]
        exact fun hdot => h1 (hdot ▸ hc)
    rw [zipEntryName, hbase]
  · have hbase : baseName t' = "" := by
      apply String.ext
      rw [baseName_data]
      match hd : t'.data with
      | [] => simp [hd] at h2
      | c :: cs =>
        rw [hd] at h2
        simp only [List.head?] at h2
        obtain rfl : c = '.' := by simpa using h2
        simp [List.takeWhile]
    rw [zipEntryName, hbase]
    rfl

/-- Witness for C10: `README` (no dot) and `.hidden` (leading dot). -/
theorem claim_C10_witness :
    zipEntryName ("README") = "compressed_" ++ "README" ++ ".webp" ∧
    zipEntryName (".hidden") = "compressed_.webp" :=
  claim_C10_dotless_and_leading_dot ("README") (".hidden") (by decide) rfl
